import Mathlib

/-!
Shallow embedding of the chain-randomness sampler (`internal/pkg/chain`,
`Sampler.Sample` / `Sampler.findTipsetAtEpoch`), the mining worker
(`mining.DefaultWorker.Mine`) and the VM gas tracker
(`vmcontext.GasTracker`) of go-filecoin, with theorems checking the
specification's claims about them.

Byte strings are lists of naturals; the external blake2b-256 digest is a
function parameter `H`; `abi.ChainEpoch` (an int64) is an `Int` with the
int64 range made explicit where it matters.
-/

set_option autoImplicit false

namespace GoFilecoin

abbrev Bytes := List Nat

/-- A block ticket: an opaque VRF proof byte string (`block.Ticket`). -/
structure Ticket where
  vrfProof : Bytes
deriving DecidableEq

/-- A tipset as the sampler sees it: its height (`abi.ChainEpoch`, an int64)
and its minimum ticket. -/
structure TipSet where
  height : Int
  minTicket : Ticket
deriving DecidableEq

/-- The chain-reading environment of a `Sampler`: `getTipSet` resolves a tipset
key to its tipset (`TipSetProvider.GetTipSet`), and `ancStream` is the stream of
results the ancestor iterator yields after its starting tipset.

Modelled from the spec: `IterAncestors` (§4.1) is not among the sources; per
the spec it lazily produces the backward, height-descending sequence of
ancestors of its start down to genesis, each step either yielding the next
ancestor or failing with a chain-read error. Its first value is the starting
tipset itself; `ancStream start` lists the results of the subsequent steps. -/
structure Sampler (ε : Type) where
  getTipSet : Bytes → Except ε TipSet
  ancStream : TipSet → List (Except ε TipSet)

/-- The 8-byte big-endian two's-complement encoding of an epoch, as written by
`binary.Write(&buf, binary.BigEndian, epoch)` for an int64 `abi.ChainEpoch`. -/
def encodeEpochBE (epoch : Int) : Bytes :=
  [(epoch % 18446744073709551616).toNat / 72057594037927936 % 256,
   (epoch % 18446744073709551616).toNat / 281474976710656 % 256,
   (epoch % 18446744073709551616).toNat / 1099511627776 % 256,
   (epoch % 18446744073709551616).toNat / 4294967296 % 256,
   (epoch % 18446744073709551616).toNat / 16777216 % 256,
   (epoch % 18446744073709551616).toNat / 65536 % 256,
   (epoch % 18446744073709551616).toNat / 256 % 256,
   (epoch % 18446744073709551616).toNat % 256]

/-- The hashing tail of `Sampler.Sample`: digest the ticket's VRF proof with the
external blake2b-256 digest `H`, append the big-endian epoch, digest again. -/
def seedOf (H : Bytes → Bytes) (vrfProof : Bytes) (epoch : Int) : Bytes :=
  H (H vrfProof ++ encodeEpochBE epoch)

/-- The loop of `Sampler.findTipsetAtEpoch`: `cur` is the iterator's current
value, `rest` the results of the remaining iterator steps. Break (returning the
current tipset) as soon as its height is ≤ `epoch`; return the first chain-read
error reached; when the iterator completes, return the last value (genesis). -/
def findFrom {ε : Type} (epoch : Int) : TipSet → List (Except ε TipSet) → Except ε TipSet
  | cur, [] => .ok cur
  | cur, .error e :: _ => if cur.height ≤ epoch then .ok cur else .error e
  | cur, .ok next :: rest => if cur.height ≤ epoch then .ok cur else findFrom epoch next rest

/-- `Sampler.findTipsetAtEpoch`: the highest tipset with height ≤ `epoch`,
found by traversing backward from `start`. -/
def Sampler.findTipsetAtEpoch {ε : Type} (s : Sampler ε) (start : TipSet) (epoch : Int) :
    Except ε TipSet :=
  findFrom epoch start (s.ancStream start)

/-- `Sampler.Sample`: draw a randomness seed from the chain identified by `head`
and the highest tipset with height ≤ `epoch`; with an empty `head`, from an
empty ticket proof. (The source's `binary.Write` into a byte buffer cannot
fail, so that error check is dead code.) -/
def Sampler.Sample {ε : Type} (s : Sampler ε) (H : Bytes → Bytes) (head : Bytes) (epoch : Int) :
    Except ε Bytes :=
  if head ≠ [] then
    match s.getTipSet head with
    | .error e => .error e
    | .ok start =>
      match s.findTipsetAtEpoch start epoch with
      | .error e => .error e
      | .ok tip => .ok (seedOf H tip.minTicket.vrfProof epoch)
  else
    .ok (seedOf H [] epoch)

/-! ### Gas tracker (`vmcontext.GasTracker`); `gas.Unit` is a `big.Int`. -/

/-- `GasTracker`: the gas limit and gas consumed of one message execution. -/
structure GasTracker where
  gasLimit : Int
  gasConsumed : Int
deriving DecidableEq

/-- `NewGasTracker`. -/
def NewGasTracker (limit : Int) : GasTracker :=
  { gasLimit := limit, gasConsumed := 0 }

/-- `GasTracker.TryCharge`: add `amount` to the gas consumed if that stays
within the limit; otherwise consume the whole limit and report failure.
Returns the flag together with the updated tracker. -/
def GasTracker.TryCharge (t : GasTracker) (amount : Int) : Bool × GasTracker :=
  let aux := t.gasConsumed + amount
  if t.gasLimit < aux then (false, { t with gasConsumed := t.gasLimit })
  else (true, { t with gasConsumed := aux })

/-- `GasTracker.GasConsumed`. -/
def GasTracker.GasConsumed (t : GasTracker) : Int := t.gasConsumed

/-- `GasTracker.RemainingGas`. -/
def GasTracker.RemainingGas (t : GasTracker) : Int := t.gasLimit - t.gasConsumed

/-! ### Chain-shape lemmas and facts about the traversal loop -/

/-- In a strictly height-descending chain, every tail member is strictly below
the head. -/
theorem desc_head_max {cur : TipSet} {l : List TipSet}
    (h : List.Chain' (fun a b => b.height < a.height) (cur :: l)) :
    ∀ u ∈ l, u.height < cur.height := by
  induction l generalizing cur with
  | nil => intro u hu; cases hu
  | cons b l ih =>
    intro u hu
    rcases List.chain'_cons.mp h with ⟨hb, h'⟩
    rcases List.mem_cons.mp hu with rfl | hu'
    · exact hb
    · exact lt_trans (ih h' u hu') hb

/-- In a strictly height-descending chain, every member is the last element or
strictly above it. -/
theorem desc_last_or_gt {l : List TipSet}
    (h : List.Chain' (fun a b => b.height < a.height) l) (hne : l ≠ []) :
    ∀ u ∈ l, u = l.getLast hne ∨ (l.getLast hne).height < u.height := by
  induction l with
  | nil => exact absurd rfl hne
  | cons a l ih =>
    intro u hu
    cases l with
    | nil =>
      left
      simp only [List.mem_singleton] at hu
      simp [hu]
    | cons b l' =>
      rcases List.mem_cons.mp hu with rfl | hu'
      · right
        rw [List.getLast_cons (List.cons_ne_nil b l')]
        exact desc_head_max h _ (List.getLast_mem (List.cons_ne_nil b l'))
      · rw [List.getLast_cons (List.cons_ne_nil b l')]
        exact ih (List.chain'_cons.mp h).2 (List.cons_ne_nil b l') u hu'

/-- If the traversal loop returns a chain-read error, that error is among the
iterator's results (the loop reached it), propagated as-is. -/
theorem findFrom_error_mem {ε : Type} {epoch : Int} {e : ε} :
    ∀ {cur : TipSet} {rest : List (Except ε TipSet)},
      findFrom epoch cur rest = .error e → Except.error e ∈ rest := by
  intro cur rest
  induction rest generalizing cur with
  | nil => intro h; cases h
  | cons x rest ih =>
    intro h
    cases x with
    | error e' =>
      rw [findFrom] at h
      by_cases hc : cur.height ≤ epoch
      · rw [if_pos hc] at h; cases h
      · rw [if_neg hc] at h
        simp only [Except.error.injEq] at h
        subst h
        exact List.mem_cons_self _ _
    | ok next =>
      rw [findFrom] at h
      by_cases hc : cur.height ≤ epoch
      · rw [if_pos hc] at h; cases h
      · rw [if_neg hc] at h
        exact List.mem_cons_of_mem _ (ih h)

/-- If every iterator step succeeds, the traversal loop succeeds. -/
theorem findFrom_total {ε : Type} (epoch : Int) :
    ∀ (cur : TipSet) (rest : List (Except ε TipSet)),
      (∀ x ∈ rest, ∃ ts, x = Except.ok ts) → ∃ T, findFrom epoch cur rest = .ok T := by
  intro cur rest
  induction rest generalizing cur with
  | nil => intro _; exact ⟨cur, rfl⟩
  | cons x rest ih =>
    intro hall
    rcases hall x (List.mem_cons_self _ _) with ⟨next, rfl⟩
    by_cases hc : cur.height ≤ epoch
    · exact ⟨cur, by rw [findFrom, if_pos hc]⟩
    · rcases ih next (fun y hy => hall y (List.mem_cons_of_mem _ hy)) with ⟨T, hT⟩
      exact ⟨T, by rw [findFrom, if_neg hc]; exact hT⟩

/-- When every iterator step succeeds over a strictly descending chain, the
traversal loop returns the highest tipset with height ≤ `epoch`, or the last
(genesis) tipset when no tipset qualifies. -/
theorem findFrom_ok_spec {ε : Type} (epoch : Int) :
    ∀ (cur : TipSet) (rest : List TipSet),
      List.Chain' (fun a b => b.height < a.height) (cur :: rest) →
      ∃ T, findFrom (ε := ε) epoch cur (rest.map Except.ok) = .ok T ∧
        ((T ∈ cur :: rest ∧ T.height ≤ epoch ∧
            ∀ u ∈ cur :: rest, u.height ≤ epoch → u.height ≤ T.height)
         ∨ ((∀ u ∈ cur :: rest, epoch < u.height) ∧
            T = (cur :: rest).getLast (List.cons_ne_nil cur rest))) := by
  intro cur rest
  induction rest generalizing cur with
  | nil =>
    intro _
    by_cases hc : cur.height ≤ epoch
    · refine ⟨cur, rfl, Or.inl ⟨List.mem_cons_self _ _, hc, ?_⟩⟩
      intro u hu _
      simp only [List.mem_singleton] at hu
      simp [hu]
    · refine ⟨cur, rfl, Or.inr ⟨?_, by simp⟩⟩
      intro u hu
      simp only [List.mem_singleton] at hu
      subst hu
      exact lt_of_not_le hc
  | cons next rest ih =>
    intro hchain
    by_cases hc : cur.height ≤ epoch
    · refine ⟨cur, by rw [List.map_cons, findFrom, if_pos hc], Or.inl ⟨List.mem_cons_self _ _, hc, ?_⟩⟩
      intro u hu _
      rcases List.mem_cons.mp hu with rfl | hu'
      · exact le_refl _
      · exact le_of_lt (desc_head_max hchain u hu')
    · have hstep : findFrom (ε := ε) epoch cur ((next :: rest).map Except.ok) =
          findFrom epoch next (rest.map Except.ok) := by
        rw [List.map_cons, findFrom, if_neg hc]
      rcases ih next (List.chain'_cons.mp hchain).2 with ⟨T, hT, hcase⟩
      have hcur : epoch < cur.height := lt_of_not_le hc
      refine ⟨T, by rw [hstep, hT], ?_⟩
      rcases hcase with ⟨hmem, hle, hmax⟩ | ⟨hall, hlast⟩
      · left
        refine ⟨List.mem_cons_of_mem _ hmem, hle, ?_⟩
        intro u hu hule
        rcases List.mem_cons.mp hu with rfl | hu'
        · exact absurd hule (not_le_of_lt hcur)
        · exact hmax u hu' hule
      · right
        constructor
        · intro u hu
          rcases List.mem_cons.mp hu with rfl | hu'
          · exact hcur
          · exact hall u hu'
        · rw [hlast, List.getLast_cons (List.cons_ne_nil next rest)]

/-- `Sample` reduces to the final hashing step once head resolution and the
ancestor walk have produced a tipset. -/
theorem sample_eq_of_find {ε : Type} (H : Bytes → Bytes) (s : Sampler ε) {head : Bytes}
    {epoch : Int} {start tip : TipSet} (hne : head ≠ [])
    (hget : s.getTipSet head = .ok start)
    (hfind : s.findTipsetAtEpoch start epoch = .ok tip) :
    s.Sample H head epoch = .ok (seedOf H tip.minTicket.vrfProof epoch) := by
  simp [Sampler.Sample, hne, hget, hfind]

/-- On error from `GetTipSet`, `Sample` propagates the error as-is. -/
theorem sample_getTipSet_error {ε : Type} (H : Bytes → Bytes) (s : Sampler ε) {head : Bytes}
    {e : ε} (hne : head ≠ []) (hget : s.getTipSet head = .error e) (epoch : Int) :
    s.Sample H head epoch = .error e := by
  simp [Sampler.Sample, hne, hget]

/-- On error from the ancestor walk, `Sample` propagates the error as-is. -/
theorem sample_find_error {ε : Type} (H : Bytes → Bytes) (s : Sampler ε) {head : Bytes}
    {start : TipSet} {epoch : Int} {e : ε} (hne : head ≠ [])
    (hget : s.getTipSet head = .ok start)
    (hfind : s.findTipsetAtEpoch start epoch = .error e) :
    s.Sample H head epoch = .error e := by
  simp [Sampler.Sample, hne, hget, hfind]

/-- Big-endian fixed-width byte strings determine the encoded value. -/
theorem bytesBE_inj {u1 u2 : Nat}
    (hu1 : u1 < 18446744073709551616) (hu2 : u2 < 18446744073709551616)
    (ha : u1 / 72057594037927936 % 256 = u2 / 72057594037927936 % 256)
    (hb : u1 / 281474976710656 % 256 = u2 / 281474976710656 % 256)
    (hc : u1 / 1099511627776 % 256 = u2 / 1099511627776 % 256)
    (hd : u1 / 4294967296 % 256 = u2 / 4294967296 % 256)
    (he : u1 / 16777216 % 256 = u2 / 16777216 % 256)
    (hf : u1 / 65536 % 256 = u2 / 65536 % 256)
    (hg : u1 / 256 % 256 = u2 / 256 % 256)
    (hh : u1 % 256 = u2 % 256) : u1 = u2 := by
  set_option maxHeartbeats 1000000 in omega

/-- The fixed-width big-endian epoch encoding is injective on the int64 range. -/
theorem encodeEpochBE_injOn {e1 e2 : Int}
    (h1 : -9223372036854775808 ≤ e1) (h2 : e1 < 9223372036854775808)
    (h3 : -9223372036854775808 ≤ e2) (h4 : e2 < 9223372036854775808)
    (h : encodeEpochBE e1 = encodeEpochBE e2) : e1 = e2 := by
  simp only [encodeEpochBE, List.cons.injEq, and_true] at h
  obtain ⟨ha, hb, hc, hd, he, hf, hg, hh⟩ := h
  have hm1 : (0:Int) ≤ e1 % 18446744073709551616 := Int.emod_nonneg e1 (by norm_num)
  have hm2 : (0:Int) ≤ e2 % 18446744073709551616 := Int.emod_nonneg e2 (by norm_num)
  have hb1 : e1 % 18446744073709551616 < 18446744073709551616 :=
    Int.emod_lt_of_pos e1 (by norm_num)
  have hb2 : e2 % 18446744073709551616 < 18446744073709551616 :=
    Int.emod_lt_of_pos e2 (by norm_num)
  have hu : (e1 % 18446744073709551616).toNat = (e2 % 18446744073709551616).toNat :=
    bytesBE_inj (by omega) (by omega) ha hb hc hd he hf hg hh
  omega

/-! ### Concrete sampler fixtures used by the witnesses -/

/-- A concrete injective stand-in for the blake2b-256 digest. -/
def sampleHashW : Bytes → Bytes := fun b => 7 :: b

/-- Genesis tipset fixture (height 0). -/
def tsGW : TipSet := ⟨0, ⟨[9]⟩⟩

/-- Middle tipset fixture (height 2). -/
def tsMidW : TipSet := ⟨2, ⟨[5]⟩⟩

/-- Head tipset fixture (height 4). -/
def tsHeadW : TipSet := ⟨4, ⟨[3]⟩⟩

/-- A sampler over the three-tipset chain, with all reads succeeding. -/
def samplerW : Sampler String :=
  { getTipSet := fun _ => .ok tsHeadW
    ancStream := fun _ => [.ok tsMidW, .ok tsGW] }

/-- A sampler whose head resolution fails. -/
def samplerFailW : Sampler String :=
  { getTipSet := fun _ => .error "boom"
    ancStream := fun _ => [] }

/-! ### Claims about the sampler -/

/-- Claim C1: for every non-empty head key and every integer epoch (over a chain
whose reads all succeed and whose ancestor heights strictly descend),
`Sampler.Sample` returns blake2b-256( blake2b-256(T.MinTicket.VRFProof) ||
epoch as a fixed-width big-endian integer ), where T is the highest ancestor
tipset of head whose height is ≤ epoch, or the genesis tipset (the last
ancestor) if the backward walk finds no such tipset. -/
theorem Sample_highest_ancestor_seed {ε : Type} (H : Bytes → Bytes) (s : Sampler ε)
    (head : Bytes) (epoch : Int) (start : TipSet) (rest : List TipSet)
    (hne : head ≠ [])
    (hget : s.getTipSet head = .ok start)
    (hanc : s.ancStream start = rest.map Except.ok)
    (hdesc : List.Chain' (fun a b => b.height < a.height) (start :: rest)) :
    ∃ T, s.Sample H head epoch = .ok (seedOf H T.minTicket.vrfProof epoch) ∧
      ((T ∈ start :: rest ∧ T.height ≤ epoch ∧
          ∀ u ∈ start :: rest, u.height ≤ epoch → u.height ≤ T.height)
       ∨ ((∀ u ∈ start :: rest, epoch < u.height) ∧
          T = (start :: rest).getLast (List.cons_ne_nil start rest))) := by
  rcases findFrom_ok_spec epoch start rest hdesc with ⟨T, hT, hcase⟩
  have hfind : s.findTipsetAtEpoch start epoch = .ok T := by
    unfold Sampler.findTipsetAtEpoch
    rw [hanc]
    exact hT
  exact ⟨T, sample_eq_of_find H s hne hget hfind, hcase⟩

/-- Witness for C1 at a concrete chain: sampling epoch 3 on the chain of
heights 4, 2, 0 resolves to the tipset at height 2. -/
theorem Sample_highest_ancestor_seed_witness :
    ∃ T, samplerW.Sample sampleHashW [1] 3 = .ok (seedOf sampleHashW T.minTicket.vrfProof 3) ∧
      ((T ∈ tsHeadW :: [tsMidW, tsGW] ∧ T.height ≤ 3 ∧
          ∀ u ∈ tsHeadW :: [tsMidW, tsGW], u.height ≤ 3 → u.height ≤ T.height)
       ∨ ((∀ u ∈ tsHeadW :: [tsMidW, tsGW], (3:Int) < u.height) ∧
          T = (tsHeadW :: [tsMidW, tsGW]).getLast (List.cons_ne_nil tsHeadW [tsMidW, tsGW]))) :=
  Sample_highest_ancestor_seed sampleHashW samplerW [1] 3 tsHeadW [tsMidW, tsGW]
    (by decide) rfl rfl
    (by norm_num [List.chain'_cons, tsHeadW, tsMidW, tsGW])

/-- Claim C5: distinct epochs that resolve to the same ancestor tipset still get
distinct seeds, because the requested epoch — not the resolved tipset's height —
is mixed into the final hash. (The external digest is idealised as injective,
matching the spec's collision-resistance assumption; epochs are int64.) -/
theorem Sample_distinct_epochs_distinct_seeds {ε : Type} (H : Bytes → Bytes) (s : Sampler ε)
    (head : Bytes) (e1 e2 : Int) (start tip : TipSet)
    (hinj : Function.Injective H)
    (hr1 : -9223372036854775808 ≤ e1) (hr2 : e1 < 9223372036854775808)
    (hr3 : -9223372036854775808 ≤ e2) (hr4 : e2 < 9223372036854775808)
    (hne12 : e1 ≠ e2) (hne : head ≠ [])
    (hget : s.getTipSet head = .ok start)
    (hf1 : s.findTipsetAtEpoch start e1 = .ok tip)
    (hf2 : s.findTipsetAtEpoch start e2 = .ok tip) :
    s.Sample H head e1 ≠ s.Sample H head e2 := by
  rw [sample_eq_of_find H s hne hget hf1, sample_eq_of_find H s hne hget hf2]
  intro hok
  apply hne12
  have h1 := Except.ok.inj hok
  simp only [seedOf] at h1
  have h2 := hinj h1
  exact encodeEpochBE_injOn hr1 hr2 hr3 hr4 (List.append_cancel_left h2)

/-- Witness for C5: epochs 5 and 9 both resolve to the head tipset (height 4),
yet their seeds differ. -/
theorem Sample_distinct_epochs_distinct_seeds_witness :
    samplerW.Sample sampleHashW [1] 5 ≠ samplerW.Sample sampleHashW [1] 9 :=
  Sample_distinct_epochs_distinct_seeds sampleHashW samplerW [1] 5 9 tsHeadW tsHeadW
    (fun a b h => by simpa [sampleHashW] using h)
    (by decide) (by decide) (by decide) (by decide) (by decide) (by decide)
    rfl rfl rfl

/-- Claim C6: with the empty head key, `Sample` hashes an empty ticket VRF proof
(the only chain-independent seed); with a non-empty chain whose genesis has
height 0, epoch 0 or any negative epoch resolves to the genesis tipset's
ticket — in both cases with the requested epoch mixed in. -/
theorem Sample_genesis_cases {ε : Type} (H : Bytes → Bytes) :
    (∀ (s : Sampler ε) (epoch : Int), s.Sample H [] epoch = .ok (seedOf H [] epoch)) ∧
    (∀ (s : Sampler ε) (head : Bytes) (epoch : Int) (start : TipSet) (rest : List TipSet),
      head ≠ [] → s.getTipSet head = .ok start →
      s.ancStream start = rest.map Except.ok →
      List.Chain' (fun a b => b.height < a.height) (start :: rest) →
      ((start :: rest).getLast (List.cons_ne_nil start rest)).height = 0 →
      epoch ≤ 0 →
      s.Sample H head epoch =
        .ok (seedOf H
          ((start :: rest).getLast (List.cons_ne_nil start rest)).minTicket.vrfProof epoch)) := by
  constructor
  · intro s epoch; rfl
  · intro s head epoch start rest hne hget hanc hdesc hlast hep
    rcases findFrom_ok_spec epoch start rest hdesc with ⟨T, hT, hcase⟩
    have hfind : s.findTipsetAtEpoch start epoch = .ok T := by
      unfold Sampler.findTipsetAtEpoch
      rw [hanc]
      exact hT
    have hTlast : T = (start :: rest).getLast (List.cons_ne_nil start rest) := by
      rcases hcase with ⟨hmem, hle, _⟩ | ⟨_, hl⟩
      · rcases desc_last_or_gt hdesc (List.cons_ne_nil start rest) T hmem with h | h
        · exact h
        · exfalso; rw [hlast] at h; omega
      · exact hl
    rw [← hTlast]
    exact sample_eq_of_find H s hne hget hfind

/-- Witness for C6: the empty head key, and epoch -2 on the concrete chain. -/
theorem Sample_genesis_cases_witness :
    (samplerW.Sample sampleHashW [] 5 = .ok (seedOf sampleHashW [] 5)) ∧
    (samplerW.Sample sampleHashW [1] (-2) =
      .ok (seedOf sampleHashW
        ((tsHeadW :: [tsMidW, tsGW]).getLast
          (List.cons_ne_nil tsHeadW [tsMidW, tsGW])).minTicket.vrfProof (-2))) :=
  ⟨(Sample_genesis_cases sampleHashW).1 samplerW 5,
   (Sample_genesis_cases sampleHashW).2 samplerW [1] (-2) tsHeadW [tsMidW, tsGW]
     (by decide) rfl rfl
     (by norm_num [List.chain'_cons, tsHeadW, tsMidW, tsGW])
     (by decide) (by decide)⟩

/-- Claim C7: `Sample` returns an error iff a chain-read failure occurs during
head resolution or ancestor traversal, and that error is propagated as-is; with
no chain-read failure (or the empty head key) it always succeeds — no other
error path exists. -/
theorem Sample_error_iff_chain_read_failure {ε : Type} (H : Bytes → Bytes) (s : Sampler ε)
    (head : Bytes) (epoch : Int) :
    (∀ e, s.Sample H head epoch = .error e →
        head ≠ [] ∧ (s.getTipSet head = .error e ∨
          ∃ start, s.getTipSet head = .ok start ∧ Except.error e ∈ s.ancStream start)) ∧
    (∀ e, head ≠ [] → s.getTipSet head = .error e → s.Sample H head epoch = .error e) ∧
    ((head = [] ∨ ∃ start, s.getTipSet head = .ok start ∧
        ∀ x ∈ s.ancStream start, ∃ ts, x = Except.ok ts) →
      ∃ seed, s.Sample H head epoch = .ok seed) := by
  refine ⟨?_, ?_, ?_⟩
  · intro e h
    by_cases hh : head = []
    · subst hh
      simp [Sampler.Sample] at h
    · refine ⟨hh, ?_⟩
      cases hget : s.getTipSet head with
      | error e' =>
        rw [sample_getTipSet_error H s hh hget epoch] at h
        injection h with h
        subst h
        exact Or.inl rfl
      | ok start =>
        cases hfind : s.findTipsetAtEpoch start epoch with
        | error e' =>
          rw [sample_find_error H s hh hget hfind] at h
          injection h with h
          subst h
          exact Or.inr ⟨start, rfl, findFrom_error_mem hfind⟩
        | ok tip =>
          rw [sample_eq_of_find H s hh hget hfind] at h
          cases h
  · intro e hne hget
    exact sample_getTipSet_error H s hne hget epoch
  · intro hc
    by_cases hh : head = []
    · subst hh
      exact ⟨seedOf H [] epoch, rfl⟩
    · rcases hc with rfl | ⟨start, hget, hall⟩
      · exact absurd rfl hh
      · rcases findFrom_total epoch start (s.ancStream start) hall with ⟨T, hT⟩
        exact ⟨_, sample_eq_of_find H s hh hget hT⟩

/-- Witness for C7: a failing head read propagates its error as-is, and the
all-reads-succeed sampler produces a seed. -/
theorem Sample_error_iff_chain_read_failure_witness :
    samplerFailW.Sample sampleHashW [1] 0 = .error "boom" ∧
    ∃ seed, samplerW.Sample sampleHashW [1] 0 = .ok seed :=
  ⟨(Sample_error_iff_chain_read_failure sampleHashW samplerFailW [1] 0).2.1 "boom"
      (by decide) rfl,
   (Sample_error_iff_chain_read_failure sampleHashW samplerW [1] 0).2.2
      (Or.inr ⟨tsHeadW, rfl, by
        intro x hx
        simp only [samplerW, List.mem_cons, List.not_mem_nil, or_false] at hx
        rcases hx with rfl | rfl
        · exact ⟨tsMidW, rfl⟩
        · exact ⟨tsGW, rfl⟩⟩)⟩

/-! ### Claim about the gas tracker -/

/-- Claim C10: `TryCharge` returns true and increases `gasConsumed` by exactly
the amount when `gasConsumed + amount ≤ gasLimit`; otherwise it returns false
and sets `gasConsumed` to `gasLimit`, so after a failed charge `RemainingGas`
is zero — a failed `TryCharge` is not a no-op on the tracker state. -/
theorem GasTracker_TryCharge_spec (t : GasTracker) (amount : Int) :
    (t.gasConsumed + amount ≤ t.gasLimit →
      t.TryCharge amount = (true, { t with gasConsumed := t.gasConsumed + amount })) ∧
    (t.gasLimit < t.gasConsumed + amount →
      t.TryCharge amount = (false, { t with gasConsumed := t.gasLimit }) ∧
      (t.TryCharge amount).2.RemainingGas = 0) := by
  constructor
  · intro h
    simp [GasTracker.TryCharge, not_lt.mpr h]
  · intro h
    have heq : t.TryCharge amount = (false, { t with gasConsumed := t.gasLimit }) := by
      simp [GasTracker.TryCharge, h]
    exact ⟨heq, by rw [heq]; simp [GasTracker.RemainingGas]⟩

/-- Witness for C10: a fitting charge and an overflowing charge on a fresh
tracker with limit 10. -/
theorem GasTracker_TryCharge_spec_witness :
    ((NewGasTracker 10).TryCharge 4 =
      (true, { NewGasTracker 10 with gasConsumed := (NewGasTracker 10).gasConsumed + 4 })) ∧
    ((NewGasTracker 10).TryCharge 11 =
      (false, { NewGasTracker 10 with gasConsumed := (NewGasTracker 10).gasLimit }) ∧
      ((NewGasTracker 10).TryCharge 11).2.RemainingGas = 0) :=
  ⟨(GasTracker_TryCharge_spec (NewGasTracker 10) 4).1 (by decide),
   (GasTracker_TryCharge_spec (NewGasTracker 10) 11).2 (by decide)⟩

/-! ### Mining worker (`mining.DefaultWorker.Mine`)

The base tipset, miner address, signer and null-block count are fixed for one
invocation, so each collaborator call is represented by its result in a
`MineEnv`; calls whose arguments are computed during the run stay functions of
those arguments. Outputs delivered on the caller-supplied channel are collected
in order in a list. -/

abbrev Err := String

abbrev Block := Nat

/-- `mining.Output`: a new block or an error. -/
structure Output where
  newBlock : Option Block
  err : Option Err
deriving DecidableEq

/-- `mining.NewOutput` applied to Go's `(block, error)` return convention:
exactly one of the two is set. -/
def newOutput (res : Except Err Block) : Output :=
  match res with
  | .ok b => ⟨some b, none⟩
  | .error e => ⟨none, some e⟩

/-- An error-only output (`outCh <- Output{Err: err}`). -/
def errOutput (e : Err) : Output := ⟨none, some e⟩

/-- The outcome of racing a proof-generation goroutine against the caller's
context (the `select` over ctx.Done / errCh / the result channel). -/
inductive RaceOutcome (α : Type) where
  | cancelled
  | failed (e : Err)
  | delivered (a : α)
deriving DecidableEq

/-- An election PoSt candidate (`ffi.Candidate`): its partial-ticket bytes
(field `PartialTicket`, here `pTicket`) and sector identity. -/
structure Candidate where
  pTicket : Bytes
  sectorID : Nat
deriving DecidableEq

/-- The collaborator results consumed by one `DefaultWorker.Mine` invocation,
listed in the order the source calls them. -/
structure MineEnv where
  /-- `base.Defined()` -/
  baseDefined : Bool
  /-- `ctx.Err() != nil` at the entry check -/
  ctxErr : Bool
  /-- `w.api.PowerStateView(base.Key())` -/
  powerStateView : Except Err Unit
  /-- `view.MinerControlAddresses(...)`, yielding the worker address -/
  minerControlAddresses : Except Err Nat
  /-- `base.MinTicket()` -/
  baseMinTicket : Except Err Ticket
  /-- `w.ticketGen.NextTicket(prevTicket, workerAddr, signer)` -/
  nextTicket : Ticket → Nat → Except Err Ticket
  /-- `base.Height()` -/
  baseHeight : Except Err Int
  /-- `w.getAncestors(ctx, base, baseHeight + nullBlkCount + 1)` -/
  getAncestors : Except Err (List TipSet)
  /-- `sampling.SampleNthTicket(ElectionLookback-1, ancestors)` -/
  sampleNthTicket : List TipSet → Except Err Ticket
  /-- `w.election.GeneratePoStRandomness(electionTicket, ...)` -/
  generatePoStRandomness : Ticket → Except Err Bytes
  /-- `w.getPowerTable(ctx, base.Key())` -/
  getPowerTable : Except Err Unit
  /-- `powerTable.SortedSectorInfos(ctx, minerAddr)` -/
  sortedSectorInfos : Except Err (List Nat)
  /-- the race over `w.election.GenerateCandidates(postRandomness, ssi, poster)` -/
  candidateRace : Bytes → List Nat → RaceOutcome (List Candidate)
  /-- `powerTable.NumSectors(ctx, minerAddr)` -/
  numSectors : Except Err Nat
  /-- `powerTable.Total(ctx)` -/
  total : Except Err Nat
  /-- `powerTable.SectorSize(ctx, minerAddr)` -/
  sectorSize : Except Err Nat
  /-- `hasher.Bytes(candidate.PartialTicket); hasher.Hash()` (external hasher) -/
  hashTicket : Bytes → Bytes
  /-- `w.election.CandidateWins(challengeTicket, sectorNum, faultCount, networkPower, sectorSize)` -/
  candidateWins : Bytes → Nat → Nat → Nat → Nat → Bool
  /-- the race over `w.election.GeneratePoSt(ssi, postRandomness, winners, poster)` -/
  postRace : List Nat → Bytes → List Candidate → RaceOutcome Bytes
  /-- `w.Generate(ctx, base, nextTicket, nullBlkCount, postInfo)` with the
  post bytes, post randomness and winners of the postInfo -/
  generate : Ticket → Bytes → Bytes → List Candidate → Except Err Block

/-- The observable outcome of one `Mine` call: the returned `won` flag and the
outputs delivered on the caller-supplied channel, in order. -/
structure MineResult where
  won : Bool
  outputs : List Output
deriving DecidableEq

/-- A synchronous fallible step of `Mine`: on error, deliver it as an output
and return with `won` still false (`outCh <- Output{Err: err}; return`). -/
def mineStep {α : Type} (x : Except Err α) (k : α → MineResult) : MineResult :=
  match x with
  | .error e => ⟨false, [errOutput e]⟩
  | .ok a => k a

/-- The win-evaluation loop of `Mine`: hash each candidate's partial ticket
into a challenge and test `CandidateWins` — passing a fault count of literal 0,
exactly as the source does (its `Dragons: must set fault count, not zero`
comment) — appending winners in candidate order. -/
def mineWinners (env : MineEnv) (candidates : List Candidate)
    (sectorNum networkPower sectorSize : Nat) : List Candidate :=
  candidates.foldl
    (fun ws c =>
      if env.candidateWins (env.hashTicket c.pTicket) sectorNum 0 networkPower sectorSize
      then ws ++ [c] else ws) []

/-- `Mine` after the candidate race: the sector/power reads, win evaluation,
the final-proof race and block generation. On cancellation of the final-proof
race the source's `select` only logs — control falls through with a nil `post`
and the `Generate` output is still delivered, with `won` set true. -/
def mineAfterCandidates (env : MineEnv) (nextTk : Ticket) (postRand : Bytes)
    (ssi : List Nat) (candidates : List Candidate) : MineResult :=
  mineStep env.numSectors fun sectorNum =>
  mineStep env.total fun networkPower =>
  mineStep env.sectorSize fun sectorSize =>
  let winners := mineWinners env candidates sectorNum networkPower sectorSize
  if winners = [] then ⟨false, []⟩
  else
    match env.postRace ssi postRand winners with
    | .cancelled => ⟨true, [newOutput (env.generate nextTk [] postRand winners)]⟩
    | .failed e => ⟨false, [errOutput e]⟩
    | .delivered post => ⟨true, [newOutput (env.generate nextTk post postRand winners)]⟩

/-- `DefaultWorker.Mine`, shallowly embedded over a `MineEnv`. On cancellation
of the candidate race the source's `select` only logs — control falls through
with nil candidates into the power-table reads and win evaluation. -/
def Mine (env : MineEnv) : MineResult :=
  if env.baseDefined = false then
    ⟨false, [errOutput "bad input tipset with no blocks sent to Mine()"]⟩
  else if env.ctxErr then ⟨false, []⟩
  else
  mineStep env.powerStateView fun _ =>
  mineStep env.minerControlAddresses fun workerAddr =>
  mineStep env.baseMinTicket fun prevTicket =>
  mineStep (env.nextTicket prevTicket workerAddr) fun nextTk =>
  mineStep env.baseHeight fun _bh =>
  mineStep env.getAncestors fun ancestors =>
  mineStep (env.sampleNthTicket ancestors) fun electionTicket =>
  mineStep (env.generatePoStRandomness electionTicket) fun postRand =>
  mineStep env.getPowerTable fun _ =>
  mineStep env.sortedSectorInfos fun ssi =>
  match env.candidateRace postRand ssi with
  | .cancelled => mineAfterCandidates env nextTk postRand ssi []
  | .failed e => ⟨false, [errOutput e]⟩
  | .delivered cs => mineAfterCandidates env nextTk postRand ssi cs

/-- All synchronous steps before the candidate race succeed, with the listed
intermediate values. -/
def ReachesRace (env : MineEnv) (nextTk : Ticket) (postRand : Bytes) (ssi : List Nat) : Prop :=
  env.baseDefined = true ∧ env.ctxErr = false ∧ env.powerStateView = .ok () ∧
  ∃ workerAddr prevTicket baseH ancestors electionTicket,
    env.minerControlAddresses = .ok workerAddr ∧
    env.baseMinTicket = .ok prevTicket ∧
    env.nextTicket prevTicket workerAddr = .ok nextTk ∧
    env.baseHeight = .ok baseH ∧
    env.getAncestors = .ok ancestors ∧
    env.sampleNthTicket ancestors = .ok electionTicket ∧
    env.generatePoStRandomness electionTicket = .ok postRand ∧
    env.getPowerTable = .ok () ∧
    env.sortedSectorInfos = .ok ssi

/-- When every synchronous step succeeds, `Mine` reduces to the dispatch on the
candidate-race outcome. -/
theorem mine_reaches_race (env : MineEnv) (nextTk : Ticket) (postRand : Bytes) (ssi : List Nat)
    (h : ReachesRace env nextTk postRand ssi) :
    Mine env =
      match env.candidateRace postRand ssi with
      | .cancelled => mineAfterCandidates env nextTk postRand ssi []
      | .failed e => ⟨false, [errOutput e]⟩
      | .delivered cs => mineAfterCandidates env nextTk postRand ssi cs := by
  obtain ⟨hb, hctx, hv, workerAddr, prevTicket, baseH, ancestors, electionTicket,
    h1, h2, h3, h4, h5, h6, h7, h8, h9⟩ := h
  simp [Mine, mineStep, hb, hctx, hv, h1, h2, h3, h4, h5, h6, h7, h8, h9]

/-- A loop appending matching elements equals a filter. -/
theorem foldl_if_append_eq_filter {α : Type} (p : α → Bool) :
    ∀ (l acc : List α),
      l.foldl (fun ws c => if p c then ws ++ [c] else ws) acc = acc ++ l.filter p := by
  intro l
  induction l with
  | nil => intro acc; simp
  | cons a l ih =>
    intro acc
    by_cases hp : p a
    · simp [hp, ih, List.filter_cons]
    · simp [hp, ih, List.filter_cons]

/-- Every `newOutput` carries a block or an error. -/
theorem newOutput_some (res : Except Err Block) :
    (newOutput res).newBlock.isSome ∨ (newOutput res).err.isSome := by
  cases res <;> simp [newOutput]

/-- The at-most-one-output invariant of a `Mine` result. -/
def AtMostOneOutput (r : MineResult) : Prop :=
  r.outputs.length ≤ 1 ∧ ∀ o ∈ r.outputs, o.newBlock.isSome ∨ o.err.isSome

/-- `mineStep` preserves the at-most-one-output invariant. -/
theorem atMostOne_mineStep {α : Type} (x : Except Err α) (k : α → MineResult)
    (hk : ∀ a, AtMostOneOutput (k a)) : AtMostOneOutput (mineStep x k) := by
  cases x with
  | error e => exact ⟨by simp [mineStep], by simp [mineStep, errOutput]⟩
  | ok a => exact hk a

/-- Everything after the candidate race delivers at most one output. -/
theorem atMostOne_after (env : MineEnv) (nextTk : Ticket) (postRand : Bytes)
    (ssi : List Nat) (cs : List Candidate) :
    AtMostOneOutput (mineAfterCandidates env nextTk postRand ssi cs) := by
  unfold mineAfterCandidates
  apply atMostOne_mineStep; intro sectorNum
  apply atMostOne_mineStep; intro networkPower
  apply atMostOne_mineStep; intro sectorSize
  dsimp only
  split
  · exact ⟨by simp, by simp⟩
  · split
    · refine ⟨by simp, ?_⟩
      intro o ho
      simp only [List.mem_singleton] at ho
      subst ho
      exact newOutput_some _
    · exact ⟨by simp, by simp [errOutput]⟩
    · refine ⟨by simp, ?_⟩
      intro o ho
      simp only [List.mem_singleton] at ho
      subst ho
      exact newOutput_some _

/-! ### Concrete mining fixtures used by witnesses and counterexamples -/

/-- Ticket fixture. -/
def tkW : Ticket := ⟨[1]⟩

/-- Candidate fixture. -/
def candW : Candidate := ⟨[2], 0⟩

/-- A mining environment in which every collaborator call succeeds, the single
candidate wins, and both races deliver. -/
def envOkW : MineEnv :=
  { baseDefined := true
    ctxErr := false
    powerStateView := .ok ()
    minerControlAddresses := .ok 0
    baseMinTicket := .ok tkW
    nextTicket := fun _ _ => .ok tkW
    baseHeight := .ok 10
    getAncestors := .ok []
    sampleNthTicket := fun _ => .ok tkW
    generatePoStRandomness := fun _ => .ok [4]
    getPowerTable := .ok ()
    sortedSectorInfos := .ok [0]
    candidateRace := fun _ _ => .delivered [candW]
    numSectors := .ok 1
    total := .ok 100
    sectorSize := .ok 1024
    hashTicket := fun b => b
    candidateWins := fun _ _ _ _ _ => true
    postRace := fun _ _ _ => .delivered [8]
    generate := fun _ _ _ _ => .ok 42 }

/-- `envOkW` with the final-proof race cancelled and `Generate` failing (as it
would with a cancelled context). -/
def envCancelPostW : MineEnv :=
  { envOkW with
    postRace := fun _ _ _ => .cancelled
    generate := fun _ _ _ _ => .error "context canceled" }

/-- `envOkW` with a win test that never succeeds. -/
def envNoWinW : MineEnv :=
  { envOkW with candidateWins := fun _ _ _ _ _ => false }

/-- `envOkW` with block generation failing. -/
def envGenFailW : MineEnv :=
  { envOkW with generate := fun _ _ _ _ => .error "gen fail" }

/-! ### Claims about the mining worker -/

/-- Claim C2 (refuted — code bug): cancelling the caller's context before the
final-proof race resolves does NOT yield silence. With every other call
succeeding and one winning candidate, the source's `select` ctx.Done case only
logs and falls through (no `return`), so `Generate` still runs and its Output
(here the error, with a nil block) is delivered, and `Mine` returns won = true.
This contradicts the `Output` type's own documentation in the same file ("If a
mining run's context is canceled there is no output") and the claim. -/
theorem Mine_cancelled_final_race_still_delivers :
    Mine envCancelPostW = ⟨true, [⟨none, some "context canceled"⟩]⟩ ∧
    (Mine envCancelPostW).outputs ≠ [] := by
  constructor
  · rfl
  · decide

/-- Claim C3: during win evaluation the win test is invoked with a fault count
of exactly zero (the source's hard-coded `0` — no fault data is ever read), and
the winner set is exactly the candidates c with
`CandidateWins(hash(c.PartialTicket), sectorNum, 0, networkPower, sectorSize)`. -/
theorem mineWinners_eq_filter_fault_zero (env : MineEnv) (cs : List Candidate)
    (sectorNum networkPower sectorSize : Nat) :
    mineWinners env cs sectorNum networkPower sectorSize =
      cs.filter (fun c =>
        env.candidateWins (env.hashTicket c.pTicket) sectorNum 0 networkPower sectorSize) := by
  unfold mineWinners
  rw [foldl_if_append_eq_filter]
  simp

/-- Claim C4: when candidate generation succeeds but no candidate passes the
win test, `Mine` delivers no Output at all and returns false. -/
theorem Mine_no_winner_silent (env : MineEnv) (nextTk : Ticket) (postRand : Bytes)
    (ssi : List Nat) (cs : List Candidate) (n p sz : Nat)
    (hreach : ReachesRace env nextTk postRand ssi)
    (hrace : env.candidateRace postRand ssi = .delivered cs)
    (hn : env.numSectors = .ok n) (hp : env.total = .ok p) (hsz : env.sectorSize = .ok sz)
    (hwin : mineWinners env cs n p sz = []) :
    Mine env = ⟨false, []⟩ := by
  rw [mine_reaches_race env nextTk postRand ssi hreach, hrace]
  simp [mineAfterCandidates, mineStep, hn, hp, hsz, hwin]

/-- Witness for C4: all calls succeed, one candidate is delivered, none wins. -/
theorem Mine_no_winner_silent_witness : Mine envNoWinW = ⟨false, []⟩ :=
  Mine_no_winner_silent envNoWinW tkW [4] [0] [candW] 1 100 1024
    ⟨rfl, rfl, rfl, 0, tkW, 10, [], tkW, rfl, rfl, rfl, rfl, rfl, rfl, rfl, rfl, rfl⟩
    rfl rfl rfl rfl (by decide)

/-- Claim C8 (amended): every invocation of `Mine` delivers at most one Output
on the caller-supplied channel — zero or one — and a delivered Output carries a
block or an error. (The original claim's "zero iff cancelled before a terminal
state, otherwise exactly one" is refuted by the counterexample.) -/
theorem Mine_at_most_one_output (env : MineEnv) :
    (Mine env).outputs.length ≤ 1 ∧
    ∀ o ∈ (Mine env).outputs, o.newBlock.isSome ∨ o.err.isSome := by
  have h : AtMostOneOutput (Mine env) := by
    unfold Mine
    split
    · exact ⟨by simp, by simp [errOutput]⟩
    · split
      · exact ⟨by simp, by simp⟩
      · apply atMostOne_mineStep; intro _
        apply atMostOne_mineStep; intro workerAddr
        apply atMostOne_mineStep; intro prevTicket
        apply atMostOne_mineStep; intro nextTk
        apply atMostOne_mineStep; intro _
        apply atMostOne_mineStep; intro ancestors
        apply atMostOne_mineStep; intro electionTicket
        apply atMostOne_mineStep; intro postRand
        apply atMostOne_mineStep; intro _
        apply atMostOne_mineStep; intro ssi
        split
        · exact atMostOne_after env nextTk postRand ssi []
        · exact ⟨by simp, by simp [errOutput]⟩
        · exact atMostOne_after env nextTk postRand ssi _
  exact h

/-- Claim C8 counterexample: an invocation that is never cancelled (the entry
check passes and the candidate race delivers) and hits no failure still
delivers zero outputs when no candidate wins — refuting the original claim's
"otherwise exactly one carrying either a block or an error". -/
theorem Mine_uncancelled_zero_outputs :
    envNoWinW.ctxErr = false ∧
    envNoWinW.candidateRace [4] [0] = .delivered [candW] ∧
    (Mine envNoWinW).outputs.length = 0 := by
  refine ⟨rfl, rfl, ?_⟩
  decide

/-- Claim C9: whenever at least one candidate wins and the final-proof race is
not resolved by an error, `Mine` returns true — including when `Generate`
fails, in which case the single delivered Output carries the error and a nil
block: the returned boolean reports election success, not block creation. -/
theorem Mine_won_reports_election (env : MineEnv) (nextTk : Ticket) (postRand : Bytes)
    (ssi : List Nat) (cs : List Candidate) (n p sz : Nat)
    (hreach : ReachesRace env nextTk postRand ssi)
    (hrace : env.candidateRace postRand ssi = .delivered cs)
    (hn : env.numSectors = .ok n) (hp : env.total = .ok p) (hsz : env.sectorSize = .ok sz)
    (hwin : mineWinners env cs n p sz ≠ [])
    (hpost : ∀ e, env.postRace ssi postRand (mineWinners env cs n p sz) ≠ .failed e) :
    ∃ post,
      Mine env =
        ⟨true, [newOutput (env.generate nextTk post postRand (mineWinners env cs n p sz))]⟩ ∧
      ∀ e, env.generate nextTk post postRand (mineWinners env cs n p sz) = .error e →
        Mine env = ⟨true, [⟨none, some e⟩]⟩ := by
  have hm := mine_reaches_race env nextTk postRand ssi hreach
  rw [hrace] at hm
  have hm2 : Mine env =
      (match env.postRace ssi postRand (mineWinners env cs n p sz) with
        | .cancelled =>
            ⟨true, [newOutput (env.generate nextTk [] postRand (mineWinners env cs n p sz))]⟩
        | .failed e => ⟨false, [errOutput e]⟩
        | .delivered post =>
            ⟨true, [newOutput (env.generate nextTk post postRand (mineWinners env cs n p sz))]⟩) := by
    rw [hm]
    simp [mineAfterCandidates, mineStep, hn, hp, hsz, hwin]
  cases hpr : env.postRace ssi postRand (mineWinners env cs n p sz) with
  | cancelled =>
    refine ⟨[], ?_, ?_⟩
    · rw [hm2, hpr]
    · intro e hg
      rw [hm2, hpr]
      simp [newOutput, hg]
  | failed e => exact absurd hpr (hpost e)
  | delivered post =>
    refine ⟨post, ?_, ?_⟩
    · rw [hm2, hpr]
    · intro e hg
      rw [hm2, hpr]
      simp [newOutput, hg]

/-- Witness for C9: `Generate` fails, yet the attempt reports a win and the
single Output carries the error with no block. -/
theorem Mine_won_reports_election_witness :
    ∃ post,
      Mine envGenFailW =
        ⟨true, [newOutput (envGenFailW.generate tkW post [4]
          (mineWinners envGenFailW [candW] 1 100 1024))]⟩ ∧
      ∀ e, envGenFailW.generate tkW post [4] (mineWinners envGenFailW [candW] 1 100 1024) =
          .error e →
        Mine envGenFailW = ⟨true, [⟨none, some e⟩]⟩ :=
  Mine_won_reports_election envGenFailW tkW [4] [0] [candW] 1 100 1024
    ⟨rfl, rfl, rfl, 0, tkW, 10, [], tkW, rfl, rfl, rfl, rfl, rfl, rfl, rfl, rfl, rfl⟩
    rfl rfl rfl rfl (by decide) (fun e h => nomatch h)

end GoFilecoin
